import Mathlib

/-!
Shallow embedding of `src/python/gahelloworld.py` (a genetic-algorithm
"Hello, world!" searcher) and proofs about it.

Modelling conventions:
* Python strings of characters are lists of character codes (`List Nat`);
  `ord`/`chr` are the identity on these codes.
* Python floats drawn by `random()` are modelled as rationals (`ℚ`).
* `randint(a, b)` is modelled by passing the drawn value explicitly; its
  support is the *inclusive* interval `[a, b]` (Python semantics).
* The random source consumed by `Population.evolve` is modelled as an
  explicit finite list of per-iteration draw bundles (`Step`); exhausting
  the list before the loop exits yields `EvolveOutcome.outOfDraws` (the
  fuel view of a loop that has not terminated yet), and an out-of-range
  list subscript yields `EvolveOutcome.indexError` (the Python exception
  aborting the call).
* Python 2 `round` (round half away from zero) is `pyRound`;
  `list[0:j]` and `list[j]` with possibly negative `j` are `pySliceTo`
  and `pyGet`, the latter returning `none` exactly where Python raises
  IndexError.
-/

namespace GAHello

/-- Character codes of `Chromosome.__target_gene`, the 13-character string
"Hello, world!". -/
def targetGene : List Nat :=
  [72, 101, 108, 108, 111, 44, 32, 119, 111, 114, 108, 100, 33]

/-- A chromosome: a gene (list of character codes) together with the fitness
computed at construction time (`Chromosome.__init__`). -/
structure Chromosome where
  gene : List Nat
  fitness : Nat
deriving DecidableEq

/-- `Chromosome._updateFitness`: sum over `zip(gene, target)` of the absolute
difference of character codes (the zip pairs positions only up to the
shorter of the two sequences). -/
def updateFitness (gene : List Nat) : Nat :=
  (gene.zip targetGene).foldl (fun f ab => f + ((ab.1 : Int) - (ab.2 : Int)).natAbs) 0

/-- The `Chromosome(gene)` constructor: stores the gene and immediately
computes its fitness. -/
def Chromosome.make (gene : List Nat) : Chromosome :=
  ⟨gene, updateFitness gene⟩

instance : Inhabited Chromosome := ⟨Chromosome.make []⟩

/-- `Chromosome.mate`: single-point crossover at `pivot`
(`gene1 = self.gene[0:pivot] + mate.gene[pivot:]`,
`gene2 = mate.gene[0:pivot] + self.gene[pivot:]`). The pivot is drawn by
`randint(0, len(self.gene) - 1)`; it is passed explicitly here. -/
def Chromosome.mate (c other : Chromosome) (pivot : Nat) : Chromosome × Chromosome :=
  (Chromosome.make (c.gene.take pivot ++ other.gene.drop pivot),
   Chromosome.make (other.gene.take pivot ++ c.gene.drop pivot))

/-- Support of the pivot draw `randint(0, L - 1)` in `Chromosome.mate`:
the inclusive interval `[0, L-1]`. -/
def matePivotSupport (L : Nat) : Finset Int :=
  Finset.Icc 0 ((L : Int) - 1)

/-- Modelled from the spec wording, for comparison with `matePivotSupport`:
the half-open interval `[0, L-1)` the spec claims the pivot is drawn from. -/
def matePivotSupportClaim (L : Nat) : Finset Int :=
  Finset.Ico 0 ((L : Int) - 1)

/-- `Chromosome.mutate`: replace the character at position `idx` by
`(ord(gene[idx]) + delta) % 122` where `delta = delta0 + 32` and the draws
`delta0 = randint(0, 89)` and `idx = randint(0, len(gene) - 1)` are passed
explicitly. -/
def Chromosome.mutate (c : Chromosome) (delta0 idx : Nat) : Chromosome :=
  Chromosome.make (c.gene.set idx ((c.gene.getD idx 0 + (delta0 + 32)) % 122))

/-- `Chromosome.genRandom`: a gene of characters `chr(randint(0, 89) + 32)`,
one per position; the draws are passed explicitly. -/
def Chromosome.genRandom (draws : List Nat) : Chromosome :=
  Chromosome.make (draws.map (fun d => d + 32))

/-- `Population.__tournamentSize`. -/
def tournamentSize : Nat := 3

/-- Python `sorted(l, key=lambda x: x.fitness)`: a stable sort by
ascending fitness. -/
def sortByFitness (l : List Chromosome) : List Chromosome :=
  l.mergeSort (fun a b => a.fitness ≤ b.fitness)

/-- `Population.__init__`: build one random chromosome per draw bundle and
sort the collection by fitness. -/
def populationInit (randomDraws : List (List Nat)) : List Chromosome :=
  sortByFitness (randomDraws.map Chromosome.genRandom)

/-- `Population.__tournamentSelection`: start from the member at the random
index `i0`, then for each of the `tournamentSize` contender indices keep the
contender exactly when its fitness is strictly lower. -/
def tournamentSelection (pop : List Chromosome) (i0 : Nat) (contenders : List Nat) :
    Chromosome :=
  contenders.foldl
    (fun best i =>
      let cont := pop.getD i default
      if cont.fitness < best.fitness then cont else best)
    (pop.getD i0 default)

/-- The random index draws consumed by one `__tournamentSelection` call. -/
structure TournDraw where
  i0 : Nat
  contenders : List Nat
deriving DecidableEq

/-- `Population.__selectParents`: two independent tournament-selection
calls. -/
def selectParents (pop : List Chromosome) (d1 d2 : TournDraw) :
    Chromosome × Chromosome :=
  (tournamentSelection pop d1.i0 d1.contenders,
   tournamentSelection pop d2.i0 d2.contenders)

/-- The draws consumed by one `random() <= mutation` test together with the
`randint` draws a `mutate()` call would consume. -/
structure MutDraw where
  r : ℚ
  delta0 : Nat
  mi : Nat
deriving DecidableEq

/-- The `if random() <= self._mutation: buf.append(c.mutate()) else:
buf.append(c)` pattern of `Population.evolve`. -/
def maybeMutate (mutation : ℚ) (md : MutDraw) (c : Chromosome) : Chromosome :=
  if md.r ≤ mutation then c.mutate md.delta0 md.mi else c

/-- All random draws one iteration of the `evolve()` while-loop may
consume: the crossover test draw `r`, the two tournament draw bundles, the
mate pivot and the per-child mutation draws (crossover branch), and the
mutation draw of the non-crossover branch. -/
structure Step where
  r : ℚ
  t1 : TournDraw
  t2 : TournDraw
  pivot : Nat
  md1 : MutDraw
  md2 : MutDraw
  md : MutDraw
deriving DecidableEq

/-- The loop state of `Population.evolve`: the buffer being filled and the
fill index `idx` (an integer, since `int(round(size * elitism))` can be
negative for out-of-range elitism rates). -/
structure EvolveState where
  buf : List Chromosome
  idx : Int
deriving DecidableEq

/-- Python 2 `round`: round half away from zero (composed with `int`, which
is the identity on an integral value). -/
def pyRound (x : ℚ) : Int :=
  if 0 ≤ x then ⌊x + 1/2⌋ else ⌈x - 1/2⌉

/-- Python `l[i]` with a possibly negative index: negative indices count
from the end, and `none` models the IndexError raised whenever
`i < -len(l)` or `i >= len(l)`. -/
def pyGet (l : List Chromosome) (i : Int) : Option Chromosome :=
  if 0 ≤ i then l[i.toNat]?
  else if -(l.length : Int) ≤ i then l[((l.length : Int) + i).toNat]? else none

/-- Python `l[0:j]` with a possibly negative stop (clamped at both ends). -/
def pySliceTo (l : List Chromosome) (j : Int) : List Chromosome :=
  if 0 ≤ j then l.take j.toNat
  else l.take (l.length - (-j).toNat)

/-- The possible outcomes of running the `evolve()` fill loop against a
finite stream of random draws: the stream ran out with the loop still
running (the fuel view of non-termination), an out-of-range subscript
raised IndexError and aborted the call, or the loop finished with a
buffer. -/
inductive EvolveOutcome where
  | outOfDraws : EvolveOutcome
  | indexError : EvolveOutcome
  | finished : List Chromosome → EvolveOutcome
deriving DecidableEq

/-- One iteration of the `evolve()` while-loop body. On the crossover
branch (`random() <= self._crossover`) two parents are tournament-selected,
mated, each child possibly mutated and appended, and `idx += 2`. On the
non-crossover branch the member of the previous generation at position
`idx` is possibly mutated and appended (`none` if that subscript raises
IndexError); the source then executes `++idx`, which in Python is two
unary pluses and leaves `idx` unchanged. -/
def evolveStep (pop : List Chromosome) (crossover mutation : ℚ)
    (st : EvolveState) (s : Step) : Option EvolveState :=
  if s.r ≤ crossover then
    let parents := selectParents pop s.t1 s.t2
    let children := parents.1.mate parents.2 s.pivot
    some { buf := st.buf ++ [maybeMutate mutation s.md1 children.1,
                             maybeMutate mutation s.md2 children.2],
           idx := st.idx + 2 }
  else
    match pyGet pop st.idx with
    | none => none
    | some c =>
      some { buf := st.buf ++ [maybeMutate mutation s.md c],
             idx := st.idx }

/-- The `while (idx < size)` loop of `evolve()`, driven by the finite list
of per-iteration draw bundles. -/
def evolveLoop (pop : List Chromosome) (crossover mutation : ℚ) (size : Nat) :
    List Step → EvolveState → EvolveOutcome
  | [], st =>
    if st.idx < (size : Int) then EvolveOutcome.outOfDraws
    else EvolveOutcome.finished st.buf
  | s :: rest, st =>
    if st.idx < (size : Int) then
      match evolveStep pop crossover mutation st s with
      | none => EvolveOutcome.indexError
      | some st2 => evolveLoop pop crossover mutation size rest st2
    else EvolveOutcome.finished st.buf

/-- `Population.evolve`: seed the buffer with the elite slice
`self._population[0:idx]` where `idx = int(round(size * self._elitism))`,
run the fill loop, then replace the population by the first `size` entries
of the buffer sorted by fitness. -/
def evolve (pop : List Chromosome) (crossover elitism mutation : ℚ)
    (steps : List Step) : EvolveOutcome :=
  let size := pop.length
  let idx0 := pyRound ((size : ℚ) * elitism)
  match evolveLoop pop crossover mutation size steps ⟨pySliceTo pop idx0, idx0⟩ with
  | EvolveOutcome.outOfDraws => EvolveOutcome.outOfDraws
  | EvolveOutcome.indexError => EvolveOutcome.indexError
  | EvolveOutcome.finished buf => EvolveOutcome.finished (sortByFitness (buf.take size))

/-- A minimal mutable-heap model for the aliasing behaviour of Python
lists: the heap is a store of list cells addressed by natural numbers. -/
structure Heap where
  cells : List (List Chromosome)
deriving DecidableEq

/-- Allocate a fresh cell holding `v`; returns the new heap and the fresh
reference. -/
def Heap.alloc (h : Heap) (v : List Chromosome) : Heap × Nat :=
  (⟨h.cells ++ [v]⟩, h.cells.length)

/-- Read the list stored in cell `r`. -/
def Heap.read (h : Heap) (r : Nat) : List Chromosome :=
  h.cells.getD r []

/-- Overwrite the contents of cell `r` (the effect of mutating the Python
list object `r` in place). -/
def Heap.write (h : Heap) (r : Nat) (v : List Chromosome) : Heap :=
  ⟨h.cells.set r v⟩

/-- A `Population` object as seen by the heap model: it holds a reference
to the list cell of its `_population` attribute. -/
structure PopulationObj where
  popRef : Nat
deriving DecidableEq

/-- The `population` property: `return self._population[:]` — allocate a
fresh list cell with the same contents and return a reference to it. -/
def populationProperty (h : Heap) (p : PopulationObj) : Heap × Nat :=
  Heap.alloc h (Heap.read h p.popRef)

/-! ## Helper lemmas -/

/-- The fitness fold is the sum of the per-position absolute differences. -/
theorem foldl_add_natAbs (l : List (Nat × Nat)) (n : Nat) :
    l.foldl (fun f ab => f + ((ab.1 : Int) - (ab.2 : Int)).natAbs) n
      = n + (l.map (fun ab => ((ab.1 : Int) - (ab.2 : Int)).natAbs)).sum := by
  induction l generalizing n with
  | nil => simp
  | cons a l ih => simp [ih, Nat.add_assoc]

/-- For equally long code lists, the summed absolute differences vanish
exactly on equal lists. -/
theorem zip_natAbs_sum_eq_zero_iff :
    ∀ (g t : List Nat), g.length = t.length →
      ((((g.zip t).map (fun ab => ((ab.1 : Int) - (ab.2 : Int)).natAbs)).sum = 0) ↔ g = t)
  | [], [], _ => by simp
  | [], _ :: _, h => by simp at h
  | _ :: _, [], h => by simp at h
  | a :: gs, b :: ts, h => by
    have h2 : gs.length = ts.length := by simpa using h
    have ih := zip_natAbs_sum_eq_zero_iff gs ts h2
    simp only [List.zip_cons_cons, List.map_cons, List.sum_cons, Nat.add_eq_zero,
      Int.natAbs_eq_zero, sub_eq_zero, Nat.cast_inj, List.cons.injEq]
    exact and_congr Iff.rfl ih

/-- The fitness of a freshly constructed chromosome, as a sum. -/
theorem make_fitness_eq_sum (g : List Nat) :
    (Chromosome.make g).fitness
      = ((g.zip targetGene).map (fun ab => ((ab.1 : Int) - (ab.2 : Int)).natAbs)).sum := by
  simp [Chromosome.make, updateFitness, foldl_add_natAbs]

/-! ## Claim theorems -/

/-- C3: for EVERY gene, of any length, the stored fitness of the
constructed chromosome is the sum of the absolute character-code
differences over `zip(gene, target)` — positions are paired only up to the
shorter of the two sequences — and for a gene of the same length as the
target the fitness is zero exactly when the gene is the target. -/
theorem fitness_sum_and_zero_iff_target (g : List Nat) :
    (Chromosome.make g).fitness
        = ((g.zip targetGene).map (fun ab => ((ab.1 : Int) - (ab.2 : Int)).natAbs)).sum
    ∧ (g.length = targetGene.length →
        ((Chromosome.make g).fitness = 0 ↔ g = targetGene)) := by
  refine ⟨make_fitness_eq_sum g, fun h => ?_⟩
  rw [make_fitness_eq_sum g]
  exact zip_natAbs_sum_eq_zero_iff g targetGene h

/-- Witness for C3: the sum form at a mismatched-length one-character gene
(shorter than the target, so only one position is paired), and the
discharged zero-iff at the target gene itself. -/
theorem fitness_sum_and_zero_iff_target_witness :
    (Chromosome.make [72]).fitness
        = (([72].zip targetGene).map (fun ab => ((ab.1 : Int) - (ab.2 : Int)).natAbs)).sum
    ∧ ((Chromosome.make targetGene).fitness = 0 ↔ targetGene = targetGene) :=
  ⟨(fitness_sum_and_zero_iff_target [72]).1,
   (fitness_sum_and_zero_iff_target targetGene).2 rfl⟩

/-- C2 counterexample: for genes of length 2 the pivot draw
`randint(0, len - 1)` can produce the last index 1, which the claimed
half-open range `[0, L-1)` excludes. -/
theorem mate_pivot_support_counterexample :
    (1 : Int) ∈ matePivotSupport 2 ∧ (1 : Int) ∉ matePivotSupportClaim 2 := by
  constructor
  · simp [matePivotSupport, Finset.mem_Icc]
  · simp [matePivotSupportClaim, Finset.mem_Ico]

/-- C2 (amended): for equally long parents the pivot is drawn from the
inclusive range `[0, L-1]` (Python `randint` includes both endpoints), and
for every pivot in that range `mate` returns the two single-point
recombinations, each of length `L`. -/
theorem mate_single_point_crossover (c m : Chromosome) (L pivot : Nat)
    (hc : c.gene.length = L) (hm : m.gene.length = L) (hL : 2 ≤ L)
    (hpivot : (pivot : Int) ∈ matePivotSupport L) :
    (c.mate m pivot).1.gene = c.gene.take pivot ++ m.gene.drop pivot
    ∧ (c.mate m pivot).2.gene = m.gene.take pivot ++ c.gene.drop pivot
    ∧ (c.mate m pivot).1.gene.length = L
    ∧ (c.mate m pivot).2.gene.length = L := by
  have hp : pivot ≤ L - 1 := by
    simp only [matePivotSupport, Finset.mem_Icc] at hpivot
    omega
  refine ⟨rfl, rfl, ?_, ?_⟩ <;>
    simp [Chromosome.mate, Chromosome.make, hc, hm] <;> omega

/-- Witness for the amended C2 theorem at two concrete length-2 parents and
the pivot 1 that the original claim excluded. -/
theorem mate_single_point_crossover_witness :
    ((Chromosome.make [72, 101]).mate (Chromosome.make [97, 98]) 1).1.gene
        = (Chromosome.make [72, 101]).gene.take 1 ++ (Chromosome.make [97, 98]).gene.drop 1
    ∧ ((Chromosome.make [72, 101]).mate (Chromosome.make [97, 98]) 1).2.gene
        = (Chromosome.make [97, 98]).gene.take 1 ++ (Chromosome.make [72, 101]).gene.drop 1
    ∧ ((Chromosome.make [72, 101]).mate (Chromosome.make [97, 98]) 1).1.gene.length = 2
    ∧ ((Chromosome.make [72, 101]).mate (Chromosome.make [97, 98]) 1).2.gene.length = 2 :=
  mate_single_point_crossover (Chromosome.make [72, 101]) (Chromosome.make [97, 98]) 2 1
    rfl rfl (by omega)
    (by simp [matePivotSupport, Finset.mem_Icc])

/-- C7: mutating at an in-range index with an in-support delta draw changes
the gene at that single position to `(old + delta) % 122`, leaves every
other position unchanged, preserves the length, and the delta
`delta0 + 32` lies in `[32, 121]`. -/
theorem mutate_single_position (c : Chromosome) (delta0 idx : Nat)
    (hidx : idx < c.gene.length) (hdelta : delta0 ≤ 89) :
    (c.mutate delta0 idx).gene.length = c.gene.length
    ∧ (∀ j, j ≠ idx → (c.mutate delta0 idx).gene.getD j 0 = c.gene.getD j 0)
    ∧ (c.mutate delta0 idx).gene.getD idx 0 = (c.gene.getD idx 0 + (delta0 + 32)) % 122
    ∧ 32 ≤ delta0 + 32 ∧ delta0 + 32 ≤ 121 := by
  refine ⟨by simp [Chromosome.mutate, Chromosome.make], ?_, ?_, by omega, by omega⟩
  · intro j hj
    simp [Chromosome.mutate, Chromosome.make, List.getD_eq_getElem?_getD,
      List.getElem?_set_ne (Ne.symm hj)]
  · simp [Chromosome.mutate, Chromosome.make, List.getD_eq_getElem?_getD,
      List.getElem?_set_self hidx]

/-- Witness for C7 on a concrete one-character chromosome. -/
theorem mutate_single_position_witness :
    ((Chromosome.make [72]).mutate 0 0).gene.length = (Chromosome.make [72]).gene.length
    ∧ (∀ j, j ≠ 0 →
        ((Chromosome.make [72]).mutate 0 0).gene.getD j 0
          = (Chromosome.make [72]).gene.getD j 0)
    ∧ ((Chromosome.make [72]).mutate 0 0).gene.getD 0 0
        = ((Chromosome.make [72]).gene.getD 0 0 + (0 + 32)) % 122
    ∧ 32 ≤ 0 + 32 ∧ 0 + 32 ≤ 121 :=
  mutate_single_position (Chromosome.make [72]) 0 0 (by simp [Chromosome.make]) (by omega)

/-- The tournament fold returns an element of the sampled list that has
minimal fitness among the seed and all contenders. -/
theorem tournament_fold_min (pop : List Chromosome) :
    ∀ (l : List Nat) (b : Chromosome),
      (l.foldl (fun best i =>
          if (pop.getD i default).fitness < best.fitness then pop.getD i default else best) b)
        ∈ b :: l.map (fun i => pop.getD i default)
      ∧ ∀ c ∈ b :: l.map (fun i => pop.getD i default),
          (l.foldl (fun best i =>
            if (pop.getD i default).fitness < best.fitness then pop.getD i default
            else best) b).fitness ≤ c.fitness := by
  intro l
  induction l with
  | nil =>
    intro b
    refine ⟨by simp, ?_⟩
    intro c hc
    simp only [List.map_nil, List.mem_singleton] at hc
    subst hc
    simp
  | cons i l ih =>
    intro b
    obtain ⟨ih1, ih2⟩ :=
      ih (if (pop.getD i default).fitness < b.fitness then pop.getD i default else b)
    have hble :
        (if (pop.getD i default).fitness < b.fitness then pop.getD i default
          else b).fitness ≤ b.fitness
        ∧ (if (pop.getD i default).fitness < b.fitness then pop.getD i default
            else b).fitness ≤ (pop.getD i default).fitness := by
      split <;> omega
    constructor
    · simp only [List.foldl_cons, List.map_cons]
      rcases List.mem_cons.mp ih1 with h | h
      · rw [h]
        split
        · exact List.mem_cons_of_mem _ (List.mem_cons_self _ _)
        · exact List.mem_cons_self _ _
      · exact List.mem_cons_of_mem _ (List.mem_cons_of_mem _ h)
    · intro c hc
      simp only [List.map_cons, List.mem_cons] at hc
      simp only [List.foldl_cons]
      rcases hc with h | h | h
      · subst h
        exact le_trans (ih2 _ (List.mem_cons_self _ _)) hble.1
      · subst h
        exact le_trans (ih2 _ (List.mem_cons_self _ _)) hble.2
      · exact ih2 c (List.mem_cons_of_mem _ (by simpa using h))

/-- C8: tournament selection starts from one random member and scans
`tournamentSize` (= 3) further random members (all indices drawn with
replacement from the member list), keeping the strictly fitter candidate at
each step; the survivor has minimal fitness among the four sampled members.
Parent selection is exactly two independent tournament calls, and equal
draw bundles yield coinciding parents. -/
theorem tournament_selection_min_of_samples (pop : List Chromosome)
    (i0 : Nat) (contenders : List Nat) (d1 d2 : TournDraw)
    (hpop : pop ≠ []) (hi0 : i0 < pop.length)
    (hlen : contenders.length = tournamentSize)
    (hin : ∀ i ∈ contenders, i < pop.length) :
    tournamentSelection pop i0 contenders
        ∈ pop.getD i0 default :: contenders.map (fun i => pop.getD i default)
    ∧ (∀ c ∈ pop.getD i0 default :: contenders.map (fun i => pop.getD i default),
        (tournamentSelection pop i0 contenders).fitness ≤ c.fitness)
    ∧ selectParents pop d1 d2
        = (tournamentSelection pop d1.i0 d1.contenders,
           tournamentSelection pop d2.i0 d2.contenders)
    ∧ (d1 = d2 → (selectParents pop d1 d2).1 = (selectParents pop d1 d2).2) := by
  obtain ⟨h1, h2⟩ := tournament_fold_min pop contenders (pop.getD i0 default)
  refine ⟨h1, h2, rfl, ?_⟩
  intro h
  subst h
  rfl

/-- Witness for C8 on a one-member population with all indices 0. -/
theorem tournament_selection_min_of_samples_witness :
    tournamentSelection [Chromosome.make [72]] 0 [0, 0, 0]
        ∈ [Chromosome.make [72]].getD 0 default
            :: [0, 0, 0].map (fun i => [Chromosome.make [72]].getD i default)
    ∧ (∀ c ∈ [Chromosome.make [72]].getD 0 default
            :: [0, 0, 0].map (fun i => [Chromosome.make [72]].getD i default),
        (tournamentSelection [Chromosome.make [72]] 0 [0, 0, 0]).fitness ≤ c.fitness)
    ∧ selectParents [Chromosome.make [72]] ⟨0, [0, 0, 0]⟩ ⟨0, [0, 0, 0]⟩
        = (tournamentSelection [Chromosome.make [72]] 0 [0, 0, 0],
           tournamentSelection [Chromosome.make [72]] 0 [0, 0, 0])
    ∧ ((⟨0, [0, 0, 0]⟩ : TournDraw) = ⟨0, [0, 0, 0]⟩ →
        (selectParents [Chromosome.make [72]] ⟨0, [0, 0, 0]⟩ ⟨0, [0, 0, 0]⟩).1
          = (selectParents [Chromosome.make [72]] ⟨0, [0, 0, 0]⟩ ⟨0, [0, 0, 0]⟩).2) :=
  tournament_selection_min_of_samples [Chromosome.make [72]] 0 [0, 0, 0]
    ⟨0, [0, 0, 0]⟩ ⟨0, [0, 0, 0]⟩ (by simp) (by simp)
    (by simp [tournamentSize]) (by simp)

/-- C9: the `population` property hands back a fresh list cell with the
same contents; the fresh reference is distinct from the internal one, and
overwriting the returned cell leaves the internal cell (re-read through the
original reference) unchanged. -/
theorem population_defensive_copy (h : Heap) (p : PopulationObj)
    (v : List Chromosome) (hvalid : p.popRef < h.cells.length) :
    Heap.read (populationProperty h p).1 (populationProperty h p).2
        = Heap.read h p.popRef
    ∧ (populationProperty h p).2 ≠ p.popRef
    ∧ Heap.read (Heap.write (populationProperty h p).1 (populationProperty h p).2 v) p.popRef
        = Heap.read h p.popRef := by
  refine ⟨?_, ?_, ?_⟩
  · simp [populationProperty, Heap.alloc, Heap.read, List.getD_eq_getElem?_getD,
      List.getElem?_append_right (le_refl h.cells.length)]
  · simp only [populationProperty, Heap.alloc]
    omega
  · simp only [populationProperty, Heap.alloc, Heap.write, Heap.read,
      List.getD_eq_getElem?_getD, List.set_append, lt_irrefl, if_false,
      Nat.sub_self, List.set_cons_zero]
    rw [List.getElem?_append_left hvalid]

/-- Witness for C9 on a one-cell heap. -/
theorem population_defensive_copy_witness :
    Heap.read (populationProperty ⟨[[Chromosome.make [72]]]⟩ ⟨0⟩).1
        (populationProperty ⟨[[Chromosome.make [72]]]⟩ ⟨0⟩).2
        = Heap.read ⟨[[Chromosome.make [72]]]⟩ 0
    ∧ (populationProperty ⟨[[Chromosome.make [72]]]⟩ ⟨0⟩).2 ≠ 0
    ∧ Heap.read
        (Heap.write (populationProperty ⟨[[Chromosome.make [72]]]⟩ ⟨0⟩).1
          (populationProperty ⟨[[Chromosome.make [72]]]⟩ ⟨0⟩).2 [])
        0
        = Heap.read ⟨[[Chromosome.make [72]]]⟩ 0 :=
  population_defensive_copy ⟨[[Chromosome.make [72]]]⟩ ⟨0⟩ [] (by simp)

/-- C1 (as the code behaves): on the non-crossover branch the member of the
previous generation at position `idx` is mutated or kept according to the
mutation draw and appended, but the fill index is NOT advanced — the
source statement `++idx` is two unary pluses, a no-op — contradicting the claimed
advance by exactly 1. -/
theorem evolve_noncross_keeps_idx (pop : List Chromosome) (crossover mutation : ℚ)
    (st : EvolveState) (s : Step) (c : Chromosome)
    (hno : crossover < s.r) (hget : pyGet pop st.idx = some c) :
    evolveStep pop crossover mutation st s
      = some ⟨st.buf ++ [maybeMutate mutation s.md c], st.idx⟩ := by
  have hn : ¬ s.r ≤ crossover := not_le.mpr hno
  simp [evolveStep, hn, hget]

/-- Witness for the C1 theorem: a concrete non-crossover iteration at the
valid in-range position 0 appends the member there but leaves the fill
index at 0 instead of advancing it to 1. -/
theorem evolve_noncross_keeps_idx_witness :
    evolveStep [Chromosome.make [72]] 0 0 ⟨[], 0⟩
        ⟨1, ⟨0, []⟩, ⟨0, []⟩, 0, ⟨0, 0, 0⟩, ⟨0, 0, 0⟩, ⟨0, 0, 0⟩⟩
      = some ⟨[] ++ [maybeMutate 0 ⟨0, 0, 0⟩ (Chromosome.make [72])], 0⟩ :=
  evolve_noncross_keeps_idx [Chromosome.make [72]] 0 0 ⟨[], 0⟩
    ⟨1, ⟨0, []⟩, ⟨0, []⟩, 0, ⟨0, 0, 0⟩, ⟨0, 0, 0⟩, ⟨0, 0, 0⟩⟩
    (Chromosome.make [72]) (by norm_num) (by simp [pyGet])

/-- A subscript in Python range (`-len <= i < len`) never raises. -/
theorem pyGet_isSome_of_in_range (l : List Chromosome) (i : Int)
    (hlow : -(l.length : Int) ≤ i) (hhigh : i < (l.length : Int)) :
    ∃ c, pyGet l i = some c := by
  unfold pyGet
  by_cases h : 0 ≤ i
  · rw [if_pos h]
    have hi : i.toNat < l.length := by omega
    exact ⟨_, List.getElem?_eq_getElem hi⟩
  · rw [if_neg h, if_pos hlow]
    have hi : ((l.length : Int) + i).toNat < l.length := by omega
    exact ⟨_, List.getElem?_eq_getElem hi⟩

/-- If no draw ever passes the crossover test and the fill index stays an
in-range subscript, the fill loop never returns: the index is only ever
advanced on the crossover branch. -/
theorem evolveLoop_exhausts_of_no_cross (pop : List Chromosome) (crossover mutation : ℚ) :
    ∀ (steps : List Step) (st : EvolveState),
      -(pop.length : Int) ≤ st.idx → st.idx < (pop.length : Int) →
      (∀ s ∈ steps, crossover < s.r) →
      evolveLoop pop crossover mutation pop.length steps st
        = EvolveOutcome.outOfDraws := by
  intro steps
  induction steps with
  | nil =>
    intro st _ hhigh _
    simp [evolveLoop, hhigh]
  | cons s rest ih =>
    intro st hlow hhigh hall
    have hs : crossover < s.r := hall s (List.mem_cons_self _ _)
    have hn : ¬ s.r ≤ crossover := not_le.mpr hs
    obtain ⟨c, hget⟩ := pyGet_isSome_of_in_range pop st.idx hlow hhigh
    have hstep : evolveStep pop crossover mutation st s
        = some ⟨st.buf ++ [maybeMutate mutation s.md c], st.idx⟩ := by
      simp [evolveStep, hn, hget]
    simp only [evolveLoop, if_pos hhigh, hstep]
    exact ih _ hlow hhigh (fun t ht => hall t (List.mem_cons_of_mem _ ht))

/-- C10 counterexample: at size 1, elitism -2 and crossover -1 the elite
count -2 is below the size and the drawn value 0 fails the crossover test,
yet `evolve` terminates by raising IndexError at `self._population[-2]`
instead of looping forever as the claim asserts. -/
theorem evolve_divergence_counterexample :
    pyRound (([Chromosome.make []].length : ℚ) * (-2)) < ([Chromosome.make []].length : Int)
    ∧ (-1 : ℚ) < (⟨0, ⟨0, []⟩, ⟨0, []⟩, 0, ⟨0, 0, 0⟩, ⟨0, 0, 0⟩, ⟨0, 0, 0⟩⟩ : Step).r
    ∧ evolve [Chromosome.make []] (-1) (-2) 0
        [⟨0, ⟨0, []⟩, ⟨0, []⟩, 0, ⟨0, 0, 0⟩, ⟨0, 0, 0⟩, ⟨0, 0, 0⟩⟩]
      = EvolveOutcome.indexError := by
  have hpr : pyRound (-2 : ℚ) = -2 := by
    have harg : (-2 : ℚ) - 1/2 = -(5/2) := by norm_num
    rw [pyRound, if_neg (by norm_num), harg, Int.ceil_eq_iff]
    norm_num
  refine ⟨by norm_num [hpr], by norm_num, ?_⟩
  norm_num [evolve, hpr, evolveLoop, evolveStep, pySliceTo, pyGet, maybeMutate]

/-- C10 (amended): when the elite count is below the population size but
at least `-size` (so the negative-index reads of the non-crossover branch
stay in Python range — in particular for any elitism rate at least 0) and
every crossover test fails (e.g. a negative crossover rate), `evolve`
exhausts any finite supply of random draws without finishing: in this fuel
model it returns `outOfDraws` for every draw list, i.e. the loop does not
terminate. -/
theorem evolve_diverges_without_crossover (pop : List Chromosome)
    (crossover elitism mutation : ℚ) (steps : List Step)
    (hidx : pyRound ((pop.length : ℚ) * elitism) < (pop.length : Int))
    (hlow : -(pop.length : Int) ≤ pyRound ((pop.length : ℚ) * elitism))
    (hfail : ∀ s ∈ steps, crossover < s.r) :
    evolve pop crossover elitism mutation steps = EvolveOutcome.outOfDraws := by
  have h := evolveLoop_exhausts_of_no_cross pop crossover mutation steps
    ⟨pySliceTo pop (pyRound ((pop.length : ℚ) * elitism)),
     pyRound ((pop.length : ℚ) * elitism)⟩ hlow hidx hfail
  simp [evolve, h]

/-- Witness for the amended C10: a singleton population with elitism 0 and
an empty draw list (every draw of which vacuously fails the crossover
test) makes `evolve` run out of draws. -/
theorem evolve_diverges_without_crossover_witness :
    evolve [Chromosome.make []] 0 0 0 [] = EvolveOutcome.outOfDraws :=
  evolve_diverges_without_crossover [Chromosome.make []] 0 0 0 []
    (by norm_num [pyRound]) (by norm_num [pyRound]) (by simp)

/-- Unfolding `evolve` when it returns a generation: the loop returned a
buffer whose first `size` entries, sorted by fitness, are the new
generation. -/
theorem evolve_eq_some (pop : List Chromosome) (crossover elitism mutation : ℚ)
    (steps : List Step) (pop2 : List Chromosome)
    (hev : evolve pop crossover elitism mutation steps = EvolveOutcome.finished pop2) :
    ∃ buf, evolveLoop pop crossover mutation pop.length steps
        ⟨pySliceTo pop (pyRound ((pop.length : ℚ) * elitism)),
         pyRound ((pop.length : ℚ) * elitism)⟩ = EvolveOutcome.finished buf
      ∧ pop2 = sortByFitness (buf.take pop.length) := by
  simp only [evolve] at hev
  rcases hm : evolveLoop pop crossover mutation pop.length steps
      ⟨pySliceTo pop (pyRound ((pop.length : ℚ) * elitism)),
       pyRound ((pop.length : ℚ) * elitism)⟩ with _ | _ | buf <;>
    rw [hm] at hev
  · simp at hev
  · simp at hev
  · simp only [EvolveOutcome.finished.injEq] at hev
    exact ⟨buf, rfl, hev.symm⟩

/-- The sort used for populations yields a fitness-nondecreasing list. -/
theorem sortByFitness_pairwise (l : List Chromosome) :
    List.Pairwise (fun a b => a.fitness ≤ b.fitness) (sortByFitness l) := by
  have h := @List.sorted_mergeSort Chromosome
    (fun a b => decide (a.fitness ≤ b.fitness))
    (fun a b c hab hbc => by
      simp only [decide_eq_true_eq] at hab hbc ⊢
      omega)
    (fun a b => by
      simp only [Bool.or_eq_true, decide_eq_true_eq]
      omega) l
  exact h.imp (fun hab => of_decide_eq_true hab)

/-- In a fitness-nondecreasing list the head has minimal fitness. -/
theorem pairwise_head_min :
    ∀ (l : List Chromosome),
      List.Pairwise (fun a b => a.fitness ≤ b.fitness) l →
      ∀ (hne : l ≠ []), ∀ c ∈ l, (l.head hne).fitness ≤ c.fitness
  | [], _, hne => absurd rfl hne
  | x :: xs, hp, _ => by
    intro c hc
    rcases List.mem_cons.mp hc with h | h
    · subst h
      simp
    · simpa using (List.pairwise_cons.mp hp).1 c h

/-- A successful loop iteration preserves `idx ≤ length of the buffer`
and never shrinks the buffer, which it only ever appends to. -/
theorem evolveStep_len_idx (pop : List Chromosome) (c m : ℚ) (st st2 : EvolveState)
    (s : Step) (hst : evolveStep pop c m st s = some st2) :
    (st.idx ≤ (st.buf.length : Int) → st2.idx ≤ (st2.buf.length : Int))
    ∧ st.buf.length ≤ st2.buf.length
    ∧ st.buf <+: st2.buf := by
  unfold evolveStep at hst
  by_cases hc : s.r ≤ c
  · rw [if_pos hc] at hst
    simp only [Option.some.injEq] at hst
    subst hst
    refine ⟨fun h => ?_, by simp, List.prefix_append _ _⟩
    simp only [List.length_append, List.length_cons, List.length_cons, List.length_nil]
    push_cast
    omega
  · rw [if_neg hc] at hst
    rcases hget : pyGet pop st.idx with _ | cc <;> rw [hget] at hst
    · simp at hst
    · simp only [Option.some.injEq] at hst
      subst hst
      refine ⟨fun h => ?_, by simp, List.prefix_append _ _⟩
      simp only [List.length_append, List.length_cons, List.length_nil]
      push_cast
      omega

/-- If the loop returns, its buffer has at least `size` entries (given the
entry invariant relating `idx`, the buffer length and `size`). -/
theorem evolveLoop_some_length (pop : List Chromosome) (c m : ℚ) (size : Nat) :
    ∀ (steps : List Step) (st : EvolveState) (b : List Chromosome),
      evolveLoop pop c m size steps st = EvolveOutcome.finished b →
      (st.idx ≤ (st.buf.length : Int) ∨ (size : Int) ≤ (st.buf.length : Int)) →
      (size : Int) ≤ (b.length : Int) := by
  intro steps
  induction steps with
  | nil =>
    intro st b hb hinv
    by_cases h : st.idx < (size : Int)
    · simp [evolveLoop, h] at hb
    · simp only [evolveLoop, if_neg h, EvolveOutcome.finished.injEq] at hb
      subst hb
      rcases hinv with h1 | h1
      · omega
      · exact h1
  | cons s rest ih =>
    intro st b hb hinv
    by_cases h : st.idx < (size : Int)
    · simp only [evolveLoop, if_pos h] at hb
      rcases hst : evolveStep pop c m st s with _ | st2 <;> rw [hst] at hb
      · simp at hb
      · obtain ⟨hki, hkm, _⟩ := evolveStep_len_idx pop c m st st2 s hst
        refine ih st2 b hb ?_
        rcases hinv with h1 | h1
        · exact Or.inl (hki h1)
        · exact Or.inr (le_trans h1 (by exact_mod_cast hkm))
    · simp only [evolveLoop, if_neg h, EvolveOutcome.finished.injEq] at hb
      subst hb
      rcases hinv with h1 | h1
      · omega
      · exact h1

/-- If the loop returns, its starting buffer is a prefix of the result. -/
theorem evolveLoop_extends_buf (pop : List Chromosome) (c m : ℚ) (size : Nat) :
    ∀ (steps : List Step) (st : EvolveState) (b : List Chromosome),
      evolveLoop pop c m size steps st = EvolveOutcome.finished b → st.buf <+: b := by
  intro steps
  induction steps with
  | nil =>
    intro st b hb
    by_cases h : st.idx < (size : Int)
    · simp [evolveLoop, h] at hb
    · simp only [evolveLoop, if_neg h, EvolveOutcome.finished.injEq] at hb
      subst hb
      exact List.prefix_refl _
  | cons s rest ih =>
    intro st b hb
    by_cases h : st.idx < (size : Int)
    · simp only [evolveLoop, if_pos h] at hb
      rcases hst : evolveStep pop c m st s with _ | st2 <;> rw [hst] at hb
      · simp at hb
      · exact (evolveStep_len_idx pop c m st st2 s hst).2.2.trans (ih st2 b hb)
    · simp only [evolveLoop, if_neg h, EvolveOutcome.finished.injEq] at hb
      subst hb
      exact List.prefix_refl _

/-- The elite slice establishes the loop entry invariant for any elite
index, negative ones included. -/
theorem pySliceTo_initial_inv (pop : List Chromosome) (j : Int) :
    j ≤ ((pySliceTo pop j).length : Int)
    ∨ (pop.length : Int) ≤ ((pySliceTo pop j).length : Int) := by
  by_cases h : 0 ≤ j <;> simp [pySliceTo, h] <;> omega

/-- C4: the generation built by the constructor is sorted nondecreasing by
fitness, and so is every generation `evolve` returns, whose head therefore
has minimal fitness. -/
theorem members_sorted_invariant (randomDraws : List (List Nat))
    (pop : List Chromosome) (crossover elitism mutation : ℚ) (steps : List Step)
    (pop2 : List Chromosome)
    (hev : evolve pop crossover elitism mutation steps = EvolveOutcome.finished pop2) :
    List.Pairwise (fun a b => a.fitness ≤ b.fitness) (populationInit randomDraws)
    ∧ List.Pairwise (fun a b => a.fitness ≤ b.fitness) pop2
    ∧ ∀ (hne : pop2 ≠ []), ∀ c ∈ pop2, (pop2.head hne).fitness ≤ c.fitness := by
  obtain ⟨buf, hm, hp2⟩ := evolve_eq_some pop crossover elitism mutation steps pop2 hev
  subst hp2
  exact ⟨sortByFitness_pairwise _, sortByFitness_pairwise _,
    pairwise_head_min _ (sortByFitness_pairwise _)⟩

/-- Witness for C4 on an empty population and a singleton random seed. -/
theorem members_sorted_invariant_witness :
    List.Pairwise (fun a b => a.fitness ≤ b.fitness) (populationInit [[0]])
    ∧ List.Pairwise (fun a b => a.fitness ≤ b.fitness) ([] : List Chromosome)
    ∧ ∀ (hne : ([] : List Chromosome) ≠ []), ∀ c ∈ ([] : List Chromosome),
        (([] : List Chromosome).head hne).fitness ≤ c.fitness :=
  members_sorted_invariant [[0]] [] 0 0 0 [] []
    (by norm_num [evolve, evolveLoop, pyRound, pySliceTo, sortByFitness])

/-- C5: whenever `evolve` returns, the new generation has exactly as many
members as the old one. -/
theorem evolve_preserves_size (pop : List Chromosome)
    (crossover elitism mutation : ℚ) (steps : List Step) (pop2 : List Chromosome)
    (hev : evolve pop crossover elitism mutation steps = EvolveOutcome.finished pop2) :
    pop2.length = pop.length := by
  obtain ⟨buf, hm, hp2⟩ := evolve_eq_some pop crossover elitism mutation steps pop2 hev
  have hinv := pySliceTo_initial_inv pop (pyRound ((pop.length : ℚ) * elitism))
  have hlen := evolveLoop_some_length pop crossover mutation pop.length steps _ buf hm hinv
  subst hp2
  simp only [sortByFitness, List.length_mergeSort, List.length_take]
  omega

/-- Witness for C5 on a singleton population. -/
theorem evolve_preserves_size_witness :
    ([Chromosome.make [72]] : List Chromosome).length = [Chromosome.make [72]].length :=
  evolve_preserves_size [Chromosome.make [72]] 0 1 0 [] [Chromosome.make [72]]
    (by norm_num [evolve, evolveLoop, pyRound, pySliceTo, sortByFitness])

/-- C6: for an elitism rate in `(0, 1)`, the elite slice — the
`round(size * elitism)` best members of the previous generation, gene
strings unchanged — occurs (as a sub-multiset) in the generation `evolve`
returns. -/
theorem evolve_elitism_preserved (pop : List Chromosome)
    (crossover elitism mutation : ℚ) (steps : List Step) (pop2 : List Chromosome)
    (he0 : 0 < elitism) (he1 : elitism < 1)
    (hev : evolve pop crossover elitism mutation steps = EvolveOutcome.finished pop2) :
    List.Subperm (pop.take (pyRound ((pop.length : ℚ) * elitism)).toNat) pop2 := by
  obtain ⟨buf, hm, hp2⟩ := evolve_eq_some pop crossover elitism mutation steps pop2 hev
  have hx0 : (0 : ℚ) ≤ (pop.length : ℚ) * elitism :=
    mul_nonneg (Nat.cast_nonneg _) he0.le
  have h0 : 0 ≤ pyRound ((pop.length : ℚ) * elitism) := by
    rw [pyRound, if_pos hx0, Int.floor_nonneg]
    linarith
  have hle : pyRound ((pop.length : ℚ) * elitism) ≤ (pop.length : Int) := by
    rw [pyRound, if_pos hx0]
    have hxs : (pop.length : ℚ) * elitism ≤ (pop.length : ℚ) :=
      mul_le_of_le_one_right (Nat.cast_nonneg _) he1.le
    have hf : ⌊(pop.length : ℚ) * elitism + 1/2⌋ < (pop.length : Int) + 1 := by
      rw [Int.floor_lt]
      push_cast
      linarith
    omega
  set k := (pyRound ((pop.length : ℚ) * elitism)).toNat with hk
  have hbuf0 : pySliceTo pop (pyRound ((pop.length : ℚ) * elitism)) = pop.take k := by
    rw [pySliceTo, if_pos h0]
  have hpre : pop.take k <+: buf := by
    have hp := evolveLoop_extends_buf pop crossover mutation pop.length steps _ buf hm
    rwa [hbuf0] at hp
  obtain ⟨t, ht⟩ := hpre
  have hpre2 : pop.take k <+: buf.take pop.length := by
    rw [← ht, List.take_append_eq_append_take]
    have h1 : (pop.take k).take pop.length = pop.take k := by
      rw [List.take_take]
      congr 1
      omega
    rw [h1]
    exact List.prefix_append _ _
  have hperm : List.Perm (sortByFitness (buf.take pop.length)) (buf.take pop.length) :=
    List.mergeSort_perm _ _
  subst hp2
  exact (hpre2.sublist.subperm).trans hperm.symm.subperm

/-- Witness for C6 on a singleton population with elitism one half, whose
single (elite) member survives `evolve` unchanged. -/
theorem evolve_elitism_preserved_witness :
    List.Subperm
      ([Chromosome.make [72]].take
        (pyRound (([Chromosome.make [72]].length : ℚ) * (1/2))).toNat)
      [Chromosome.make [72]] :=
  evolve_elitism_preserved [Chromosome.make [72]] 1 (1/2) 0 [] [Chromosome.make [72]]
    (by norm_num) (by norm_num)
    (by norm_num [evolve, evolveLoop, pyRound, pySliceTo, sortByFitness])

end GAHello
